import Mathlib

/-!
Shallow embedding of the sway-scale-switcher program (src/main.rs) and proofs
about its specification claims.

Modelling conventions:
* A text line is a `List Char` (`Line`); the whole config file is `List Line`.
* Rust `f32` values are modelled at two levels of fidelity.  The main pipeline
  uses exact rationals (`ℚ`): this abstracts away rounding and overflow, which
  none of the claims depend on, and keeps every predicate decidable.  A second
  type `F` adds the IEEE special values (`nan`, signed infinity) where a claim
  is about them (NaN-totality of the sort comparator, the float grammar of
  `str::parse::<f32>`).
* The regex patterns of the source (`^output\s+"([^\"]+)"\s+scale\s+([0-9.]+)`,
  `# Target Display = (.+)`, `# Scale Options = (.+)`) are deterministic
  (every quantifier is greedy over a character class that cannot overlap the
  following literal), so they are embedded as straight-line scanners.
  The regex class `\s` and Rust `str::trim` are modelled on their ASCII
  members; config lines are ASCII in all claims considered.
* Process exits (`process::exit(1)` and slice-bound panics) are modelled as
  `Except` errors: an error value means the process terminates before the
  file-writing step, so no file is written.
-/

abbrev Line := List Char

def strL (s : String) : Line := s.toList

/-- ASCII members of the regex class `\s` / Rust whitespace. -/
def wsChar (c : Char) : Bool :=
  c == ' ' || c == '\t' || c == '\n' || c == '\r' || c == '\x0b' || c == '\x0c'

/-- Model of Rust `str::trim` (restricted to ASCII whitespace). -/
def trim (l : Line) : Line :=
  ((l.dropWhile wsChar).reverse.dropWhile wsChar).reverse

/-- `leadsWith pat l` holds when `pat` is an initial segment of `l`. -/
def leadsWith : Line → Line → Bool
  | [], _ => true
  | _ :: _, [] => false
  | a :: as, b :: bs => a == b && leadsWith as bs

/-- Model of Rust `str::contains` with a literal pattern (substring test). -/
def containsSub (pat : Line) : Line → Bool
  | [] => leadsWith pat []
  | c :: r => leadsWith pat (c :: r) || containsSub pat r

/-- Model of `Regex::captures` for a pattern of the form `<literal>(.+)`:
the capture is everything after the leftmost occurrence of the literal that
is followed by at least one character (since `.` does not match a newline and
lines carry none, `(.+)` greedily captures to the end of the line). -/
def findCapture (pat : Line) : Line → Option Line
  | [] => none
  | c :: r =>
    if leadsWith pat (c :: r) && !(List.drop pat.length (c :: r)).isEmpty then
      some (List.drop pat.length (c :: r))
    else
      findCapture pat r

/-- Model of Rust `Iterator::position`: index of the first element satisfying
the predicate. -/
def findIdxQ (p : α → Bool) : List α → Option Nat
  | [] => none
  | a :: as => if p a then some 0 else (findIdxQ p as).map (· + 1)

/-- Model of Rust `str::split(',')` (note `"".split(',')` yields one empty
token, and separators at the ends yield empty tokens). -/
def splitComma : Line → List Line
  | [] => [[]]
  | c :: r =>
    if c == ',' then
      [] :: splitComma r
    else
      match splitComma r with
      | t :: ts => (c :: t) :: ts
      | [] => [[c]]

def digitsToNat (l : Line) : Nat :=
  l.foldl (fun n c => n * 10 + (c.toNat - '0'.toNat)) 0

def asciiLower (c : Char) : Char :=
  if 'A' ≤ c ∧ c ≤ 'Z' then Char.ofNat (c.toNat + 32) else c

/-- Rust `f32` values as seen by this program: finite values are exact
rationals, plus NaN and the signed infinities.  Rounding of finite values is
abstracted away. -/
inductive F where
  | num (q : ℚ)
  | nan
  | inf (neg : Bool)
deriving DecidableEq

/-- The tolerance `1e-6` used by the source for float comparisons.
(Written with `mkRat` so that it evaluates by plain kernel reduction; it
equals `1 / 1000000`, see `scaleEps_eq`.) -/
def scaleEps : ℚ := mkRat 1 1000000

/-- Subtraction of rationals, written with `Rat.divInt` so that concrete
instances evaluate by plain kernel reduction.  Equals `a - b`, see
`qsub_eq`. -/
def qsub (a b : ℚ) : ℚ :=
  Rat.divInt (a.num * b.den - b.num * a.den) ((a.den : ℤ) * b.den)

/-- Absolute value of a rational (as Rust `f32::abs`); equals `|q|`, see
`qabs_eq`. -/
def qabs (q : ℚ) : ℚ := if q < 0 then -q else q

/-- The comparison `(a - b).abs() < 1e-6` used throughout the source. -/
def closeEnough (a b : ℚ) : Bool := qabs (qsub a b) < scaleEps

/-- The exact rational denoted by the decimal digits `d1 . d2`. -/
def decMantissa (d1 d2 : Line) : ℚ :=
  Rat.divInt ((digitsToNat d1 : ℤ) * (10 : ℤ) ^ d2.length + (digitsToNat d2 : ℤ))
    ((10 : ℤ) ^ d2.length)

/-- `q` scaled by `10^e` with sign `eneg` on the exponent. -/
def applyExp10 (q : ℚ) (eneg : Bool) (e : ℕ) : ℚ :=
  if eneg then Rat.divInt q.num ((q.den : ℤ) * (10 : ℤ) ^ e)
  else Rat.divInt (q.num * (10 : ℤ) ^ e) (q.den : ℤ)

/-- Exponent part of the Rust float grammar: `(e|E) Sign? Digits`, applied to
an already-parsed mantissa.  An empty remainder means no exponent. -/
def parseExpPart (neg : Bool) (base : ℚ) (r : Line) : Option F :=
  match r with
  | [] => some (F.num (if neg then -base else base))
  | c :: r2 =>
    if asciiLower c == 'e' then
      let (eneg, ebody) :=
        match r2 with
        | '-' :: r3 => (true, r3)
        | '+' :: r3 => (false, r3)
        | r3 => (false, r3)
      if !ebody.isEmpty && ebody.all (·.isDigit) then
        let v := applyExp10 base eneg (digitsToNat ebody)
        some (F.num (if neg then -v else v))
      else none
    else none

/-- Number part of the Rust float grammar:
`Digits | Digits '.' Digits? | '.' Digits`, then an optional exponent. -/
def parseNumber (neg : Bool) (body : Line) : Option F :=
  let d1 := body.takeWhile (·.isDigit)
  let r1 := body.drop d1.length
  match r1 with
  | '.' :: r2 =>
    let d2 := r2.takeWhile (·.isDigit)
    let r3 := r2.drop d2.length
    if d1.isEmpty && d2.isEmpty then none
    else parseExpPart neg (decMantissa d1 d2) r3
  | r2 =>
    if d1.isEmpty then none
    else parseExpPart neg (decMantissa d1 []) r2

/-- Model of Rust `str::parse::<f32>` (`FromStr` for `f32`):
`Sign? ( 'inf' | 'infinity' | 'nan' | Number )`, keywords case-insensitive.
Rounding of finite decimal values to binary is abstracted away (exact value
kept); overflow to infinity of huge finite literals is likewise abstracted. -/
def parseF32F (s : Line) : Option F :=
  match s with
  | [] => none
  | _ =>
    let (neg, body) :=
      match s with
      | '-' :: r => (true, r)
      | '+' :: r => (false, r)
      | r => (false, r)
    let low := body.map asciiLower
    if low == strL "inf" || low == strL "infinity" then some (F.inf neg)
    else if low == strL "nan" then some F.nan
    else parseNumber neg body

/-- Number of decimal fraction digits needed to write `q` exactly (searched up
to 64; every value reaching this function in the pipeline comes from a decimal
literal, whose denominator is a power of ten). -/
def decExpAux (q : ℚ) : Nat :=
  match (List.range 65).find? (fun k => (applyExp10 q false k).den == 1) with
  | some k => k
  | none => 0

/-- Model of Rust's `Display` for `f32` under the exact-rational abstraction:
the shortest plain decimal form — no trailing fractional zeros, and integers
are printed without a decimal point (`1.0` prints as `1`). -/
def fmtScale (q : ℚ) : Line :=
  let a := qabs q
  let k := decExpAux a
  let m := (applyExp10 a false k).num.toNat
  let ip := Nat.toDigits 10 (m / 10 ^ k)
  let fp := Nat.toDigits 10 (m % 10 ^ k)
  let pad := List.replicate (k - fp.length) '0'
  (if q < 0 then ['-'] else []) ++ ip ++ (if k == 0 then [] else '.' :: (pad ++ fp))

/-- Model of the anchored regex `^output\s+"([^\"]+)"\s+scale\s+([0-9.]+)`:
returns the two captures (raw display text, number text) and the rest of the
line after the number capture.  Every quantifier in the pattern is greedy over
a class disjoint from the literal that follows it, so matching is
deterministic. -/
def matchOutput (l : Line) : Option (Line × Line × Line) :=
  if leadsWith (strL "output") l then
    let r1 := l.drop 6
    let w1 := r1.takeWhile wsChar
    if w1.isEmpty then none
    else
      match r1.drop w1.length with
      | '"' :: r3 =>
        let d := r3.takeWhile (· != '"')
        if d.isEmpty then none
        else
          match r3.drop d.length with
          | '"' :: r4 =>
            let w2 := r4.takeWhile wsChar
            if w2.isEmpty then none
            else
              let r5 := r4.drop w2.length
              if leadsWith (strL "scale") r5 then
                let r6 := r5.drop 5
                let w3 := r6.takeWhile wsChar
                if w3.isEmpty then none
                else
                  let r7 := r6.drop w3.length
                  let n := r7.takeWhile (fun c => c.isDigit || c == '.')
                  if n.isEmpty then none else some (d, n, r7.drop n.length)
              else none
          | _ => none
      | _ => none
  else none

/-! ## The program's functions (src/main.rs), rational level -/

/-- `scale_values` sorted ascending, as `sorted_scales` in `get_next_scale`
(`sort_by(partial_cmp.unwrap())` is a stable sort; on values without NaN the
comparator is the total order on ℚ, and since equal rationals are identical,
any sorted permutation — in particular the insertion sort used here — equals
the one the Rust sort produces). -/
def sortedScales (sv : List ℚ) : List ℚ :=
  List.insertionSort (· ≤ ·) sv

/-- Model of `get_next_scale` (main.rs:211-242): sort ascending, find the
first index within `1e-6` of the current scale and step to the next index
cyclically; fall back to the first (smallest) sorted value.  `getD _ 0` stands
for Rust indexing, whose bounds are discharged separately (see the `F`-level
model for the panic-freedom claim). -/
def getNextScale (sv : List ℚ) (cur : ℚ) : ℚ :=
  match findIdxQ (fun s => closeEnough s cur) (sortedScales sv) with
  | some i => (sortedScales sv).getD ((i + 1) % (sortedScales sv).length) 0
  | none => (sortedScales sv).getD 0 0

/-- One reading of `get_current_scale`'s scan loop: a line matching the output
regex whose trimmed display is a target contributes its parsed scale, with a
parse failure defaulting to `1.0` (`unwrap_or(1.0)`).  (Under the
exact-rational abstraction a `[0-9.]+` capture never parses to `inf`/`nan`,
so the wildcard arm only covers parse failure.) -/
def readLine (targets : List Line) (l : Line) : Option ℚ :=
  match matchOutput l with
  | some (d, n, _) =>
    if targets.contains (trim d) then
      some (match parseF32F (trim n) with
            | some (F.num q) => q
            | _ => 1)
    else none
  | none => none

/-- The list of readings collected by `get_current_scale`'s scan loop. -/
def readScales (lines : List Line) (targets : List Line) : List ℚ :=
  lines.filterMap (readLine targets)

/-- Warnings `get_current_scale` prints to stderr. -/
inductive ScaleWarning where
  | noReadings
  | disagree (first : ℚ)
deriving DecidableEq

/-- Model of `get_current_scale` (main.rs:168-208): collect readings for
target displays; none → `1.0` plus a warning; otherwise the first reading,
with a warning naming it when some reading differs from it by at least
`1e-6`. -/
def getCurrentScale (lines : List Line) (targets : List Line) :
    ℚ × Option ScaleWarning :=
  match readScales lines targets with
  | [] => (1, some .noReadings)
  | s :: rest =>
    if (s :: rest).all (fun x => closeEnough x s) then (s, none)
    else (s, some (.disagree s))

/-- Per-line action of `update_scale_in_outputs` (main.rs:278-309): a line
matching the output regex with a targeted (trimmed) display is rebuilt as
`output "<display>" scale <new_scale><rest>`; every other line is returned
unchanged. -/
def updateLine (targets : List Line) (newScale : ℚ) (l : Line) : Line :=
  match matchOutput l with
  | some (d, _, rest) =>
    if targets.contains (trim d) then
      strL "output \"" ++ trim d ++ strL "\" scale " ++ fmtScale newScale ++ rest
    else l
  | none => l

/-- Model of `update_scale_in_outputs`: the per-line map over all lines. -/
def updateScaleInOutputs (lines : List Line) (targets : List Line)
    (newScale : ℚ) : List Line :=
  lines.map (updateLine targets newScale)

/-- `trimmed.eq_ignore_ascii_case("q")` with the one-letter literal `"q"` is
exactly equality with `"q"` or `"Q"`. -/
def isQuitInput (t : Line) : Bool :=
  t == strL "q" || t == strL "Q"

/-- Model of Rust `usize::from_str` (64-bit target): an optional leading `+`,
then one or more ASCII digits and nothing else; values ≥ 2^64 overflow to an
error. -/
def parseUsize (t : Line) : Option Nat :=
  let body := match t with
    | '+' :: r => r
    | r => r
  if !body.isEmpty && body.all (·.isDigit) then
    if digitsToNat body < 2 ^ 64 then some (digitsToNat body) else none
  else none

/-- Model of `prompt_user_for_scale`'s input loop (main.rs:245-275) on an
explicit sequence of input tokens: the first token that is a (case-insensitive)
`q` yields `some none` ("quit, no selection"); the first token parsing to an
integer in `[1, |scale_values|]` yields the corresponding 1-based value in
declaration order; every other token is skipped (in the program: re-prompted).
`none` means the token sequence was exhausted with the loop still running
(the program would block for more input — it never terminates on rejected
input). -/
def promptUserForScale (sv : List ℚ) : List Line → Option (Option ℚ)
  | [] => none
  | t :: rest =>
    let tr := trim t
    if isQuitInput tr then some none
    else
      match parseUsize tr with
      | some choice =>
        if 0 < choice ∧ choice ≤ sv.length then some (some (sv.getD (choice - 1) 0))
        else promptUserForScale sv rest
      | none => promptUserForScale sv rest

/-! ## Section parsing (`parse_scale_options`, main.rs:129-165) -/

def targetPat : Line := strL "# Target Display = "

def scalePat : Line := strL "# Scale Options = "

/-- `<value>` of a `# Scale Options = <value>` line, parsed: split on commas,
trim each token, keep those Rust `parse::<f32>` accepts. -/
def scaleTokens (v : Line) : List F :=
  (splitComma v).filterMap fun t => parseF32F (trim t)

/-- One iteration of the `parse_scale_options` loop: a target-pattern match
appends the trimmed capture to `target_displays`; otherwise (`else if`) a
scale-pattern match replaces `scale_values` wholesale. -/
def parseStep (acc : List Line × List F) (l : Line) : List Line × List F :=
  match findCapture targetPat l with
  | some d => (acc.1 ++ [trim d], acc.2)
  | none =>
    match findCapture scalePat l with
    | some v => (acc.1, scaleTokens v)
    | none => acc

/-- The loop of `parse_scale_options` before its two emptiness checks. -/
def parseScaleOptionsRaw (lines : List Line) : List Line × List F :=
  lines.foldl parseStep ([], [])

/-- Fatal exits of the program (each is `eprintln!` + `process::exit(1)`, or
for `slicePanic` the out-of-bounds slice `&lines[scale_start..=scale_end]`);
reaching any of them means no file is written. -/
inductive ConfigError where
  | startMissing
  | endMissing
  | slicePanic
  | noTargets
  | noScales
deriving DecidableEq

deriving instance DecidableEq for Except

/-- Model of `parse_scale_options` including its two fatal emptiness checks. -/
def parseScaleOptions (lines : List Line) :
    Except ConfigError (List Line × List F) :=
  let acc := parseScaleOptionsRaw lines
  if acc.1.isEmpty then .error .noTargets
  else if acc.2.isEmpty then .error .noScales
  else .ok acc

/-! ## Section extraction in `main` (main.rs:43-59) -/

def startMarker : Line := strL "Scale Options Start"

def endMarker : Line := strL "Scale Options End"

/-- Model of main.rs:43-59: `scale_start` is the first line (anywhere)
containing the start marker, `scale_end` the first line (anywhere) containing
the end marker; each missing marker exits with its own diagnostic.  The Rust
slice `&lines[s..=e]` yields `lines[s..e+1]` when `s ≤ e`, the empty slice
when `s = e+1`, and panics when `s > e+1`. -/
def mainSection (lines : List Line) : Except ConfigError (List Line) :=
  match findIdxQ (containsSub startMarker) lines with
  | none => .error .startMissing
  | some s =>
    match findIdxQ (containsSub endMarker) lines with
    | none => .error .endMissing
    | some e =>
      if s ≤ e + 1 then .ok ((lines.drop s).take (e + 1 - s))
      else .error .slicePanic

/-- The claim's reading of the section bounds (spec §4.1): from the first
line containing the start marker through the first line at or after it
containing the end marker.  Kept for comparison with `mainSection`. -/
def claimSection (lines : List Line) : Except ConfigError (List Line) :=
  match findIdxQ (containsSub startMarker) lines with
  | none => .error .startMissing
  | some s =>
    match findIdxQ (containsSub endMarker) (lines.drop s) with
    | none => .error .endMissing
    | some d => .ok ((lines.drop s).take (d + 1))

/-! ## Path handling in `main` (main.rs:35, 80, 114-126) -/

/-- Model of `expanduser`: a path starting with `~` has the `~` replaced by
the home directory (`none` when no home directory exists, making the
`.expect` in `main` panic); any other path is passed through unchanged. -/
def expanduser (home : Option Line) (path : Line) : Option Line :=
  match path with
  | '~' :: rest => home.map (fun h => h ++ rest)
  | _ => some path

/-- The config path literal passed to `expanduser` in `main`. -/
def swayConfigArg : Line := strL "~/.config/sway/config"

/-- The temporary file path hardcoded in `main` (main.rs:80). -/
def tempConfigPath : Line := strL "/home/fribbit/.config/sway/config_temp"

/-- Directory part of a path: everything before the last `/`. -/
def parentDir (p : Line) : Line :=
  ((p.reverse.dropWhile (fun c => c != '/')).drop 1).reverse

/-! ## `get_next_scale` at `f32` fidelity, for the NaN-safety claim -/

/-- `f32::partial_cmp`: `none` exactly when either argument is NaN. -/
def pcmp : F → F → Option Ordering
  | .nan, _ => none
  | _, .nan => none
  | .inf a, .inf b =>
    if a = b then some .eq else if a then some .lt else some .gt
  | .inf a, .num _ => if a then some .lt else some .gt
  | .num _, .inf b => if b then some .gt else some .lt
  | .num a, .num b =>
    if a < b then some .lt else if a = b then some .eq else some .gt

/-- Insert into a sorted list using the partial comparator; `none` models the
`unwrap` panic inside the sort closure. -/
def insertF (x : F) : List F → Option (List F)
  | [] => some [x]
  | y :: ys =>
    match pcmp x y with
    | none => none
    | some .gt => (insertF x ys).map (y :: ·)
    | some _ => some (x :: y :: ys)

/-- `sort_by(partial_cmp.unwrap())` as a panic-aware sort.  (The comparison
schedule differs from Rust's actual sort algorithm, but panic-freedom on
NaN-free input and the resulting order — the comparator then being a total
order with identical equal elements — agree.) -/
def sortByF : List F → Option (List F)
  | [] => some []
  | x :: xs => (sortByF xs).bind (insertF x)

/-- IEEE subtraction on `F` (finite part exact). -/
def subF : F → F → F
  | .nan, _ => .nan
  | _, .nan => .nan
  | .inf a, .inf b => if a = b then .nan else .inf a
  | .inf a, .num _ => .inf a
  | .num _, .inf b => .inf (!b)
  | .num a, .num b => .num (qsub a b)

/-- IEEE absolute value on `F`. -/
def absF : F → F
  | .nan => .nan
  | .inf _ => .inf false
  | .num q => .num |q|

/-- IEEE `<` on `F` (false whenever NaN is involved). -/
def ltF : F → F → Bool
  | .nan, _ => false
  | _, .nan => false
  | .inf a, .inf b => a && !b
  | .inf a, .num _ => a
  | .num _, .inf b => !b
  | .num a, .num b => decide (a < b)

/-- `get_next_scale` at `f32` fidelity: `none` models a panic (comparator
`unwrap` or out-of-bounds index). -/
def getNextScaleF (sv : List F) (cur : F) : Option F :=
  match sortByF sv with
  | none => none
  | some sorted =>
    match findIdxQ (fun s => ltF (absF (subF s cur)) (.num scaleEps)) sorted with
    | some i => sorted[(i + 1) % sorted.length]?
    | none => sorted[0]?

/-! ## Bridge lemmas: the kernel-friendly arithmetic used in the definitions
equals the standard rational operations -/

theorem scaleEps_eq : scaleEps = 1 / 1000000 := by
  rw [scaleEps, Rat.mkRat_eq_divInt, Rat.divInt_eq_div]
  norm_num

theorem qsub_eq (a b : ℚ) : qsub a b = a - b := by
  rw [qsub, Rat.divInt_eq_div]
  push_cast
  conv_rhs => rw [← Rat.num_div_den a, ← Rat.num_div_den b,
    div_sub_div _ _ (Nat.cast_ne_zero.mpr a.den_nz) (Nat.cast_ne_zero.mpr b.den_nz)]
  ring_nf

theorem qabs_eq (q : ℚ) : qabs q = |q| := by
  rw [qabs]
  rcases lt_or_le q 0 with h | h
  · rw [if_pos h, abs_of_neg h]
  · rw [if_neg (not_lt.mpr h), abs_of_nonneg h]

theorem closeEnough_iff (a b : ℚ) : closeEnough a b = true ↔ |a - b| < scaleEps := by
  rw [closeEnough, decide_eq_true_iff, qabs_eq, qsub_eq]

/-! ## Helper lemmas about the list primitives -/

theorem findIdxQ_eq_some (p : α → Bool) (d : α) :
    ∀ (l : List α) (k : ℕ), k < l.length → p (l.getD k d) = true →
      (∀ j, j < k → p (l.getD j d) = false) → findIdxQ p l = some k
  | [], k, hk, _, _ => absurd hk (by simp)
  | a :: as, 0, _, hp, _ => by simp [findIdxQ, List.getD] at hp ⊢; simp [hp]
  | a :: as, k + 1, hk, hp, hprev => by
    have ha : p a = false := hprev 0 (Nat.succ_pos k)
    have ih := findIdxQ_eq_some p d as k (by simpa using hk) (by simpa using hp)
      (fun j hj => by simpa using hprev (j + 1) (Nat.succ_lt_succ hj))
    simp [findIdxQ, ha, ih]

theorem findIdxQ_eq_none (p : α → Bool) :
    ∀ l : List α, (∀ x ∈ l, p x = false) → findIdxQ p l = none
  | [], _ => rfl
  | a :: as, h => by
    have ha := h a (List.mem_cons_self a as)
    have ih := findIdxQ_eq_none p as (fun x hx => h x (List.mem_cons_of_mem a hx))
    simp [findIdxQ, ha, ih]

theorem findIdxQ_lt_length (p : α → Bool) :
    ∀ (l : List α) (i : ℕ), findIdxQ p l = some i → i < l.length
  | [], i, h => by simp [findIdxQ] at h
  | a :: as, i, h => by
    by_cases hp : p a = true
    · simp [findIdxQ, hp] at h
      simp [← h]
    · rw [findIdxQ, if_neg hp] at h
      match hi : findIdxQ p as with
      | none => rw [hi] at h; simp at h
      | some j =>
        rw [hi] at h
        simp at h
        have := findIdxQ_lt_length p as j hi
        simp only [List.length_cons, ← h]
        omega

theorem getD_mem (d : α) : ∀ (l : List α) (i : ℕ), i < l.length → l.getD i d ∈ l
  | [], i, h => absurd h (by simp)
  | a :: as, 0, _ => List.mem_cons_self a as
  | a :: as, i + 1, h => by
    have := getD_mem d as i (by simpa using h)
    simpa [List.getD] using Or.inr this

/-! ## Helper lemmas about `sortedScales` -/

theorem sortedScales_perm (sv : List ℚ) : (sortedScales sv).Perm sv :=
  List.perm_insertionSort (· ≤ ·) sv

theorem sortedScales_sorted (sv : List ℚ) : (sortedScales sv).Sorted (· ≤ ·) :=
  List.sorted_insertionSort (· ≤ ·) sv

theorem sortedScales_length (sv : List ℚ) : (sortedScales sv).length = sv.length :=
  (sortedScales_perm sv).length_eq

theorem sortedScales_of_perm (sv sv' : List ℚ) (h : sv'.Perm sv) :
    sortedScales sv' = sortedScales sv :=
  List.eq_of_perm_of_sorted
    (((sortedScales_perm sv').trans h).trans (sortedScales_perm sv).symm)
    (sortedScales_sorted sv') (sortedScales_sorted sv)

theorem getNextScale_mem (sv : List ℚ) (cur : ℚ) (h : sv ≠ []) :
    getNextScale sv cur ∈ sv := by
  have hlen : 0 < (sortedScales sv).length := by
    rw [sortedScales_length]
    exact List.length_pos.mpr h
  rw [getNextScale]
  match hidx : findIdxQ (fun s => closeEnough s cur) (sortedScales sv) with
  | some i =>
    exact (sortedScales_perm sv).mem_iff.mp
      (getD_mem 0 _ _ (Nat.mod_lt _ hlen))
  | none =>
    exact (sortedScales_perm sv).mem_iff.mp (getD_mem 0 _ _ hlen)

/-! ## C2: the rewriter is length-preserving and leaves non-matching lines
untouched -/

/-- A line the rewriter acts on: an anchored output-line match whose trimmed
display is in `target_displays`. -/
def isTargetedMatch (targets : List Line) (l : Line) : Bool :=
  match matchOutput l with
  | some (d, _, _) => targets.contains (trim d)
  | none => false

theorem updateLine_frame (targets : List Line) (ns : ℚ) (l : Line)
    (h : isTargetedMatch targets l = false) : updateLine targets ns l = l := by
  rw [updateLine]
  rw [isTargetedMatch] at h
  match hm : matchOutput l with
  | none => rfl
  | some (d, n, rest) =>
    rw [hm] at h
    simp only [] at h
    have h' : ¬ trim d ∈ targets := by simpa using h
    simp [h']

/-- C2: `update_scale_in_outputs` is length-preserving, and every line that is
not an anchored output-line match for a display in `target_displays` —
including output lines for non-target displays and comment lines — is passed
through unchanged, character for character. -/
theorem c2_rewrite_frame (lines targets : List Line) (ns : ℚ) :
    (updateScaleInOutputs lines targets ns).length = lines.length ∧
    ∀ (i : ℕ) (l : Line), lines[i]? = some l → isTargetedMatch targets l = false →
      (updateScaleInOutputs lines targets ns)[i]? = some l := by
  constructor
  · exact List.length_map lines (updateLine targets ns)
  · intro i l hl hm
    rw [updateScaleInOutputs, List.getElem?_map, hl, Option.map_some',
      updateLine_frame targets ns l hm]

/-- C2 witness: a comment line and a non-target output line pass through the
rewriter unchanged. -/
theorem c2_rewrite_frame_witness :
    (updateScaleInOutputs [strL "# a comment", strL "output \"HDMI-A-1\" scale 2"]
      [strL "eDP-1"] 2)[0]? = some (strL "# a comment") ∧
    (updateScaleInOutputs [strL "# a comment", strL "output \"HDMI-A-1\" scale 2"]
      [strL "eDP-1"] 2)[1]? = some (strL "output \"HDMI-A-1\" scale 2") :=
  ⟨(c2_rewrite_frame [strL "# a comment", strL "output \"HDMI-A-1\" scale 2"]
      [strL "eDP-1"] 2).2 0 (strL "# a comment") (by decide) (by decide),
   (c2_rewrite_frame [strL "# a comment", strL "output \"HDMI-A-1\" scale 2"]
      [strL "eDP-1"] 2).2 1 (strL "output \"HDMI-A-1\" scale 2") (by decide) (by decide)⟩

/-! ## C4: current-scale detection -/

theorem readLine_none_iff (targets : List Line) (l : Line) :
    readLine targets l = none ↔ isTargetedMatch targets l = false := by
  rw [readLine, isTargetedMatch]
  match matchOutput l with
  | none => simp
  | some (d, n, r) =>
    by_cases hc : targets.contains (trim d) = true
    · simp [hc]
    · simp [hc]

/-- C4: the readings list is empty exactly when no anchored
`output "<display>" scale <number>` line with a targeted display exists, and
then `get_current_scale` returns `1.0` with a warning; if all recorded
readings are within `1e-6` of the first, it returns the first reading (their
common value) without a warning; if some reading disagrees, it returns the
first reading (in scan order) with a warning naming it. -/
theorem c4_current_scale (lines targets : List Line) :
    (readScales lines targets = [] ↔
      ∀ l ∈ lines, isTargetedMatch targets l = false) ∧
    (readScales lines targets = [] →
      getCurrentScale lines targets = (1, some .noReadings)) ∧
    ∀ (s : ℚ) (rest : List ℚ), readScales lines targets = s :: rest →
      ((∀ x ∈ s :: rest, |x - s| < scaleEps) →
        getCurrentScale lines targets = (s, none)) ∧
      ((∃ x ∈ s :: rest, ¬(|x - s| < scaleEps)) →
        getCurrentScale lines targets = (s, some (.disagree s))) := by
  refine ⟨?_, ?_, ?_⟩
  · rw [readScales, List.filterMap_eq_nil_iff]
    exact forall₂_congr (fun l _ => readLine_none_iff targets l)
  · intro h
    rw [getCurrentScale, h]
  · intro s rest h
    constructor
    · intro hall
      rw [getCurrentScale, h]
      show (if ((s :: rest).all fun x => closeEnough x s) = true
        then ((s : ℚ), (none : Option ScaleWarning))
        else (s, some (.disagree s))) = _
      rw [if_pos]
      rw [List.all_eq_true]
      intro x hx
      exact (closeEnough_iff x s).mpr (hall x hx)
    · intro hex
      obtain ⟨x, hx, hnx⟩ := hex
      rw [getCurrentScale, h]
      show (if ((s :: rest).all fun x => closeEnough x s) = true
        then ((s : ℚ), (none : Option ScaleWarning))
        else (s, some (.disagree s))) = _
      rw [if_neg]
      intro hall
      rw [List.all_eq_true] at hall
      exact hnx ((closeEnough_iff x s).mp (hall x hx))

/-- C4 witness: no reading → `(1, warning)`; one agreeing reading → that
value without warning; two disagreeing readings → the first one, with the
warning naming it. -/
theorem c4_current_scale_witness :
    getCurrentScale [strL "# just a comment"] [strL "eDP-1"] =
      (1, some .noReadings) ∧
    getCurrentScale [strL "output \"eDP-1\" scale 2"] [strL "eDP-1"] = (2, none) ∧
    getCurrentScale [strL "output \"eDP-1\" scale 2", strL "output \"eDP-1\" scale 3"]
      [strL "eDP-1"] = (2, some (.disagree 2)) :=
  ⟨(c4_current_scale [strL "# just a comment"] [strL "eDP-1"]).2.1 (by decide),
   ((c4_current_scale [strL "output \"eDP-1\" scale 2"] [strL "eDP-1"]).2.2 2 []
     (by decide)).1 (by with_unfolding_all decide),
   ((c4_current_scale [strL "output \"eDP-1\" scale 2", strL "output \"eDP-1\" scale 3"]
     [strL "eDP-1"]).2.2 2 [3] (by decide)).2 (by with_unfolding_all decide)⟩

/-! ## C1: cycle mode -/

/-- C1 counterexample: the claim as stated — "if the current scale equals the
k-th smallest of the N values within tolerance `1e-6`, the result is the
(k+1 mod N)-th smallest" — fails when the current scale is within tolerance of
more than one sorted value.  With `scale_values = [1, 2000001/2000000]` and
current scale `1`, the current scale equals the 2nd smallest (k = 1) within
tolerance, so the claim demands the (2 mod 2) = 0-th smallest, `1`; the code
matches the *first* sorted index instead and returns `2000001/2000000`. -/
theorem c1_counterexample :
    (sortedScales [1, mkRat 2000001 2000000]).length = 2 ∧
    (sortedScales [1, mkRat 2000001 2000000]).getD 1 0 = mkRat 2000001 2000000 ∧
    |(mkRat 2000001 2000000 : ℚ) - 1| < scaleEps ∧
    getNextScale [1, mkRat 2000001 2000000] 1 ≠
      (sortedScales [1, mkRat 2000001 2000000]).getD ((1 + 1) % 2) 0 :=
  ⟨by decide, by decide, by with_unfolding_all decide, by decide⟩

/-- C1 (amended): for a non-empty `scale_values` and the *first* sorted index
`k` whose value is within `1e-6` of the current scale (in particular the
unique such index, when the spec's presupposition that the tolerance window
singles out one index holds), `get_next_scale` returns the (k+1 mod N)-th
smallest value; when no value matches within tolerance it returns the smallest
value of `scale_values`; and ascending sorting is stable under any
reordering of the declared values. -/
theorem c1_next_scale_cycle (sv : List ℚ) (cur : ℚ) (h : sv ≠ []) :
    (∀ k, k < (sortedScales sv).length →
      |(sortedScales sv).getD k 0 - cur| < scaleEps →
      (∀ j, j < k → ¬(|(sortedScales sv).getD j 0 - cur| < scaleEps)) →
      getNextScale sv cur = (sortedScales sv).getD ((k + 1) % (sortedScales sv).length) 0) ∧
    ((∀ s ∈ sv, ¬(|s - cur| < scaleEps)) →
      getNextScale sv cur = (sortedScales sv).getD 0 0 ∧
      (sortedScales sv).getD 0 0 ∈ sv ∧
      ∀ s ∈ sv, (sortedScales sv).getD 0 0 ≤ s) ∧
    (∀ sv' : List ℚ, sv'.Perm sv → sortedScales sv' = sortedScales sv) := by
  refine ⟨?_, ?_, fun sv' hp => sortedScales_of_perm sv sv' hp⟩
  · intro k hk hpk hprev
    rw [getNextScale, findIdxQ_eq_some (fun s => closeEnough s cur) 0 (sortedScales sv) k hk
      ((closeEnough_iff _ _).mpr hpk)
      (fun j hj => by rw [← Bool.not_eq_true, closeEnough_iff]; exact hprev j hj)]
  · intro hnone
    have hlen : 0 < (sortedScales sv).length := by
      rw [sortedScales_length]; exact List.length_pos.mpr h
    have hfalse : ∀ x ∈ sortedScales sv, closeEnough x cur = false := by
      intro x hx
      rw [← Bool.not_eq_true, closeEnough_iff]
      exact hnone x ((sortedScales_perm sv).mem_iff.mp hx)
    refine ⟨?_, ?_, ?_⟩
    · rw [getNextScale, findIdxQ_eq_none _ _ hfalse]
    · exact (sortedScales_perm sv).mem_iff.mp (getD_mem 0 _ _ hlen)
    · intro s hs
      have hs' : s ∈ sortedScales sv := (sortedScales_perm sv).mem_iff.mpr hs
      match hss : sortedScales sv with
      | [] => rw [hss] at hlen; simp at hlen
      | a :: t =>
        rw [hss] at hs'
        have hsorted := sortedScales_sorted sv
        rw [hss, List.sorted_cons] at hsorted
        rcases List.mem_cons.mp hs' with h1 | h2
        · rw [h1]; rfl
        · exact hsorted.1 s h2

/-- C1 witness: with scale values `[1, 3/2, 5/4]` and current scale `5/4`
(uniquely matching sorted index 1 of `[1, 5/4, 3/2]`), the next scale is the
2nd-smallest-successor `3/2`; and with current `2`, matching nothing, the
result is the smallest value `1`. -/
theorem c1_next_scale_cycle_witness :
    getNextScale [1, mkRat 3 2, mkRat 5 4] (mkRat 5 4) =
      (sortedScales [1, mkRat 3 2, mkRat 5 4]).getD
        ((1 + 1) % (sortedScales [1, mkRat 3 2, mkRat 5 4]).length) 0 ∧
    (sortedScales [1, mkRat 3 2, mkRat 5 4]).getD
        ((1 + 1) % (sortedScales [1, mkRat 3 2, mkRat 5 4]).length) 0 = mkRat 3 2 ∧
    getNextScale [1, mkRat 3 2, mkRat 5 4] 2 = (sortedScales [1, mkRat 3 2, mkRat 5 4]).getD 0 0 ∧
    (sortedScales [1, mkRat 3 2, mkRat 5 4]).getD 0 0 = 1 :=
  ⟨(c1_next_scale_cycle [1, mkRat 3 2, mkRat 5 4] (mkRat 5 4) (by decide)).1 1
      (by decide) (by with_unfolding_all decide) (by with_unfolding_all decide),
   by decide,
   ((c1_next_scale_cycle [1, mkRat 3 2, mkRat 5 4] 2 (by decide)).2.1
      (by with_unfolding_all decide)).1,
   by decide⟩

/-! ## C9: every value the program can write back is a declared option -/

/-- C9: for non-empty `scale_values`, `get_next_scale` always returns an
element of `scale_values` (matched and fallback branch alike), and
`prompt_user_for_scale` returns either the no-selection signal or an element
of `scale_values`; hence the rewriter is only ever invoked with a member of
`scale_values`. -/
theorem c9_result_membership (sv : List ℚ) (cur : ℚ) (inputs : List Line)
    (h : sv ≠ []) :
    getNextScale sv cur ∈ sv ∧
    ∀ r : ℚ, promptUserForScale sv inputs = some (some r) → r ∈ sv := by
  refine ⟨getNextScale_mem sv cur h, ?_⟩
  induction inputs with
  | nil => intro r hr; simp [promptUserForScale] at hr
  | cons t rest ih =>
    intro r hr
    rw [promptUserForScale] at hr
    by_cases hq : isQuitInput (trim t) = true
    · rw [if_pos hq] at hr
      simp at hr
    · rw [if_neg hq] at hr
      match hp : parseUsize (trim t) with
      | some c =>
        rw [hp] at hr
        have hr2 : (if 0 < c ∧ c ≤ sv.length then some (some (sv.getD (c - 1) 0))
            else promptUserForScale sv rest) = some (some r) := hr
        by_cases hc : 0 < c ∧ c ≤ sv.length
        · rw [if_pos hc] at hr2
          have hr' : sv.getD (c - 1) 0 = r := by
            simpa using hr2
          rw [← hr']
          exact getD_mem 0 sv (c - 1) (by omega)
        · rw [if_neg hc] at hr2
          exact ih r hr2
      | none =>
        rw [hp] at hr
        exact ih r hr

/-- C9 witness: concrete cycle and prompt results are declared options. -/
theorem c9_result_membership_witness :
    getNextScale [mkRat 5 4, 1] 1 ∈ [mkRat 5 4, (1 : ℚ)] ∧
    ∀ r : ℚ, promptUserForScale [mkRat 5 4, 1] [strL "2"] = some (some r) →
      r ∈ [mkRat 5 4, (1 : ℚ)] :=
  c9_result_membership [mkRat 5 4, 1] 1 [strL "2"] (by decide)

/-! ## C7: interactive mode -/

/-- An input token the prompt loop accepts: a case-insensitive `q`, or an
integer in `[1, |scale_values|]`. -/
def acceptInput (sv : List ℚ) (t : Line) : Bool :=
  isQuitInput (trim t) ||
    (match parseUsize (trim t) with
     | some c => decide (0 < c ∧ c ≤ sv.length)
     | none => false)

theorem parseUsize_not_quit (t : Line) (c : ℕ) (h : parseUsize t = some c) :
    isQuitInput t = false := by
  match ht : isQuitInput t with
  | false => rfl
  | true =>
    rw [isQuitInput] at ht
    rcases Bool.or_eq_true_iff.mp ht with h1 | h1
    · rw [eq_of_beq h1, (by decide : parseUsize (strL "q") = none)] at h
      exact Option.noConfusion h
    · rw [eq_of_beq h1, (by decide : parseUsize (strL "Q") = none)] at h
      exact Option.noConfusion h

theorem prompt_skip (sv : List ℚ) (t : Line) (rest : List Line)
    (h : acceptInput sv t = false) :
    promptUserForScale sv (t :: rest) = promptUserForScale sv rest := by
  rw [acceptInput, Bool.or_eq_false_iff] at h
  obtain ⟨hq, hp⟩ := h
  rw [promptUserForScale, if_neg (by simp [hq])]
  match hps : parseUsize (trim t) with
  | some c =>
    rw [hps] at hp
    have hp2 : decide (0 < c ∧ c ≤ sv.length) = false := hp
    show (if 0 < c ∧ c ≤ sv.length then some (some (sv.getD (c - 1) 0))
      else promptUserForScale sv rest) = promptUserForScale sv rest
    rw [if_neg (by simpa using hp2)]
  | none => rfl

theorem prompt_exhausted (sv : List ℚ) :
    ∀ inputs : List Line, (∀ b ∈ inputs, acceptInput sv b = false) →
      promptUserForScale sv inputs = none
  | [], _ => rfl
  | t :: rest, h => by
    rw [prompt_skip sv t rest (h t (List.mem_cons_self t rest))]
    exact prompt_exhausted sv rest (fun b hb => h b (List.mem_cons_of_mem t hb))

/-- C7: the prompt loop consumes inputs until the first acceptable one: a
case-insensitive `q` yields the tagged no-selection result `some none`
(distinct from any chosen value `some (some v)`); an integer `c` within
`[1, |scale_values|]` yields the `c`-th declared value (1-based, declaration
order); every earlier token is rejected and merely skipped — rejection never
terminates the loop, so a sequence of only rejected tokens leaves the loop
still waiting for input (`none`), not aborting the program. -/
theorem c7_prompt_loop (sv : List ℚ) (pre : List Line) (a : Line)
    (rest : List Line) (hpre : ∀ b ∈ pre, acceptInput sv b = false) :
    (isQuitInput (trim a) = true →
      promptUserForScale sv (pre ++ a :: rest) = some none) ∧
    (∀ c, parseUsize (trim a) = some c → 0 < c → c ≤ sv.length →
      promptUserForScale sv (pre ++ a :: rest) = some (some (sv.getD (c - 1) 0))) ∧
    ((∀ b ∈ pre ++ a :: rest, acceptInput sv b = false) →
      promptUserForScale sv (pre ++ a :: rest) = none) := by
  have hskip : promptUserForScale sv (pre ++ a :: rest) =
      promptUserForScale sv (a :: rest) := by
    induction pre with
    | nil => rfl
    | cons b pre' ih =>
      rw [List.cons_append, prompt_skip sv b (pre' ++ a :: rest)
        (hpre b (List.mem_cons_self b pre'))]
      exact ih (fun x hx => hpre x (List.mem_cons_of_mem b hx))
  refine ⟨?_, ?_, fun hall => prompt_exhausted sv _ hall⟩
  · intro hq
    rw [hskip, promptUserForScale, if_pos hq]
  · intro c hc h0 hlen
    have hq : isQuitInput (trim a) = false := parseUsize_not_quit (trim a) c hc
    rw [hskip, promptUserForScale, if_neg (by simp [hq]), hc]
    show (if 0 < c ∧ c ≤ sv.length then some (some (sv.getD (c - 1) 0))
      else promptUserForScale sv rest) = some (some (sv.getD (c - 1) 0))
    rw [if_pos ⟨h0, hlen⟩]

/-- C7 witness: against three options, the inputs `"abc"`, `"9"`, `"2"`
reject the first two and return the second declared scale value; and a `"q"`
after rejected input yields the tagged no-selection result. -/
theorem c7_prompt_loop_witness :
    promptUserForScale [1, mkRat 5 4, mkRat 3 2] [strL "abc", strL "9", strL "2"] =
      some (some ([1, mkRat 5 4, mkRat 3 2].getD (2 - 1) 0)) ∧
    [1, mkRat 5 4, mkRat 3 2].getD (2 - 1) 0 = mkRat 5 4 ∧
    promptUserForScale [1, mkRat 5 4, mkRat 3 2] [strL "zz", strL "Q"] = some none ∧
    promptUserForScale [1, mkRat 5 4, mkRat 3 2] [strL "zz", strL "0"] = none :=
  ⟨(c7_prompt_loop [1, mkRat 5 4, mkRat 3 2] [strL "abc", strL "9"] (strL "2") []
      (by decide)).2.1 2 (by decide) (by decide) (by decide),
   by decide,
   (c7_prompt_loop [1, mkRat 5 4, mkRat 3 2] [strL "zz"] (strL "Q") []
      (by decide)).1 (by decide),
   (c7_prompt_loop [1, mkRat 5 4, mkRat 3 2] [strL "zz"] (strL "0") []
      (by decide)).2.2 (by decide)⟩

/-! ## C5: round-trip with the current scale -/

/-- The exact line the rewriter emits for a targeted match: trimmed display,
single spaces, and the number in the tool's canonical float format. -/
def canonOutputLine (d : Line) (q : ℚ) (rest : Line) : Line :=
  strL "output \"" ++ d ++ strL "\" scale " ++ fmtScale q ++ rest

/-- A line is already in the rewriter's canonical form for scale `q`: either
it is not a targeted output-line match, or it equals the line the rewriter
would emit for it. -/
def isCanonicalFor (targets : List Line) (q : ℚ) (l : Line) : Bool :=
  match matchOutput l with
  | some (d, _, r) =>
    !(targets.contains (trim d)) || (l == canonOutputLine (trim d) q r)
  | none => true

theorem update_fixes_canonical (targets : List Line) (q : ℚ) :
    ∀ lines : List Line, (∀ l ∈ lines, isCanonicalFor targets q l = true) →
      updateScaleInOutputs lines targets q = lines
  | [], _ => rfl
  | l :: rest, h => by
    have hl := h l (List.mem_cons_self l rest)
    have hrest := update_fixes_canonical targets q rest
      (fun x hx => h x (List.mem_cons_of_mem l hx))
    rw [updateScaleInOutputs] at hrest ⊢
    rw [List.map_cons, hrest]
    rw [isCanonicalFor] at hl
    rw [updateLine]
    match hm : matchOutput l with
    | none => rfl
    | some (d, n, r) =>
      rw [hm] at hl
      simp only [] at hl
      show (if targets.contains (trim d) = true then
          strL "output \"" ++ trim d ++ strL "\" scale " ++ fmtScale q ++ r
        else l) :: rest = l :: rest
      by_cases hc : targets.contains (trim d) = true
      · rw [hc, Bool.not_true, Bool.false_or] at hl
        rw [if_pos hc]
        rw [canonOutputLine] at hl
        exact congrArg (· :: rest) (eq_of_beq hl).symm
      · rw [if_neg hc]

/-- C5 (amended): rewriting with the detected current scale is the identity
provided every targeted matching line is already in the rewriter's canonical
form for that scale (trimmed display, single spaces, number in canonical
float format); byte-identity does *not* hold in general, because the number
capture is replaced by the canonical rendering of the current scale (e.g. a
line written `scale 1.0` is rewritten to `scale 1`, see
`c5_counterexample`). -/
theorem c5_roundtrip_canonical (lines targets : List Line)
    (hc : ∀ l ∈ lines,
      isCanonicalFor targets (getCurrentScale lines targets).1 l = true) :
    updateScaleInOutputs lines targets (getCurrentScale lines targets).1 = lines :=
  update_fixes_canonical targets (getCurrentScale lines targets).1 lines hc

/-- C5 counterexample: the claim's byte-identity fails as stated.  With the
single line `output "eDP-1" scale 1.0` and target `eDP-1`, the detected
current scale is `1.0` and rewriting with it yields
`output "eDP-1" scale 1` — the previously-matching line is not byte-identical
to its original form. -/
theorem c5_counterexample :
    getCurrentScale [strL "output \"eDP-1\" scale 1.0"] [strL "eDP-1"] = (1, none) ∧
    matchOutput (strL "output \"eDP-1\" scale 1.0") =
      some (strL "eDP-1", strL "1.0", []) ∧
    [strL "eDP-1"].contains (trim (strL "eDP-1")) = true ∧
    updateScaleInOutputs [strL "output \"eDP-1\" scale 1.0"] [strL "eDP-1"]
      (getCurrentScale [strL "output \"eDP-1\" scale 1.0"] [strL "eDP-1"]).1 =
      [strL "output \"eDP-1\" scale 1"] ∧
    updateScaleInOutputs [strL "output \"eDP-1\" scale 1.0"] [strL "eDP-1"]
      (getCurrentScale [strL "output \"eDP-1\" scale 1.0"] [strL "eDP-1"]).1 ≠
      [strL "output \"eDP-1\" scale 1.0"] := by decide

/-- C5 witness: a config whose matching line is already canonical round-trips
byte-identically. -/
theorem c5_roundtrip_canonical_witness :
    updateScaleInOutputs [strL "output \"eDP-1\" scale 1.5 pos 0 0", strL "# c"]
      [strL "eDP-1"]
      (getCurrentScale [strL "output \"eDP-1\" scale 1.5 pos 0 0", strL "# c"]
        [strL "eDP-1"]).1 =
      [strL "output \"eDP-1\" scale 1.5 pos 0 0", strL "# c"] :=
  c5_roundtrip_canonical [strL "output \"eDP-1\" scale 1.5 pos 0 0", strL "# c"]
    [strL "eDP-1"] (by decide)

/-! ## C6: section parsing -/

/-- Spec-side reading of the target list: the trimmed `<value>` of every line
matching `# Target Display = <value>`, in order of appearance. -/
def specTargets (lines : List Line) : List Line :=
  lines.filterMap fun l => (findCapture targetPat l).map trim

/-- The scale capture of a line that the loop actually treats as a scale line:
it must *not* match the target pattern (the `else if`), and match the scale
pattern. -/
def scaleOnlyCapture (l : Line) : Option Line :=
  match findCapture targetPat l with
  | some _ => none
  | none => findCapture scalePat l

/-- The capture of the last scale-only line, if any. -/
def lastScaleOnly : List Line → Option Line
  | [] => none
  | l :: rest => (lastScaleOnly rest).orElse (fun _ => scaleOnlyCapture l)

/-- Amended spec-side reading of `scale_values`: parsed from the last line
that matches `# Scale Options = <value>` and does not match
`# Target Display = <value>`. -/
def specScalesAmended (lines : List Line) : List F :=
  ((lastScaleOnly lines).map scaleTokens).getD []

/-- The capture of the last line matching the scale pattern, regardless of
whether the target pattern also matches (the claim's reading). -/
def lastScaleAny : List Line → Option Line
  | [] => none
  | l :: rest => (lastScaleAny rest).orElse (fun _ => findCapture scalePat l)

/-- Claim-side reading of `scale_values`: parsed from the last line matching
`# Scale Options = <value>`, full stop. -/
def specScalesClaim (lines : List Line) : List F :=
  ((lastScaleAny lines).map scaleTokens).getD []

theorem parseFold_eq (lines : List Line) :
    ∀ (ts : List Line) (ss : List F),
      lines.foldl parseStep (ts, ss) =
        (ts ++ specTargets lines, ((lastScaleOnly lines).map scaleTokens).getD ss) := by
  induction lines with
  | nil => intro ts ss; simp [specTargets, lastScaleOnly]
  | cons l rest ih =>
    intro ts ss
    rw [List.foldl_cons]
    have hlast : lastScaleOnly (l :: rest) =
        (lastScaleOnly rest).orElse (fun _ => scaleOnlyCapture l) := rfl
    match hT : findCapture targetPat l with
    | some d =>
      have hstep : parseStep (ts, ss) l = (ts ++ [trim d], ss) := by
        rw [parseStep, hT]
      have honly : scaleOnlyCapture l = none := by
        rw [scaleOnlyCapture, hT]
      have h1 : specTargets (l :: rest) = trim d :: specTargets rest := by
        simp only [specTargets, List.filterMap_cons, hT, Option.map_some']
      have h2 : ((lastScaleOnly (l :: rest)).map scaleTokens).getD ss =
          ((lastScaleOnly rest).map scaleTokens).getD ss := by
        rw [hlast, honly]
        match lastScaleOnly rest with
        | some w => rfl
        | none => rfl
      rw [hstep, ih, h1, h2, List.append_assoc, List.singleton_append]
    | none =>
      match hS : findCapture scalePat l with
      | some v =>
        have hstep : parseStep (ts, ss) l = (ts, scaleTokens v) := by
          rw [parseStep, hT, hS]
        have honly : scaleOnlyCapture l = some v := by
          rw [scaleOnlyCapture, hT, hS]
        have h1 : specTargets (l :: rest) = specTargets rest := by
          simp only [specTargets, List.filterMap_cons, hT, Option.map_none']
        have h2 : ((lastScaleOnly (l :: rest)).map scaleTokens).getD ss =
            ((lastScaleOnly rest).map scaleTokens).getD (scaleTokens v) := by
          rw [hlast, honly]
          match lastScaleOnly rest with
          | some w => rfl
          | none => rfl
        rw [hstep, ih, h1, h2]
      | none =>
        have hstep : parseStep (ts, ss) l = (ts, ss) := by
          rw [parseStep, hT, hS]
        have honly : scaleOnlyCapture l = none := by
          rw [scaleOnlyCapture, hT, hS]
        have h1 : specTargets (l :: rest) = specTargets rest := by
          simp only [specTargets, List.filterMap_cons, hT, Option.map_none']
        have h2 : ((lastScaleOnly (l :: rest)).map scaleTokens).getD ss =
            ((lastScaleOnly rest).map scaleTokens).getD ss := by
          rw [hlast, honly]
          match lastScaleOnly rest with
          | some w => rfl
          | none => rfl
        rw [hstep, ih, h1, h2]

/-- C6 counterexample: the claim fails on a line matching both patterns.  For
the section line `# Scale Options = 1,2 # Target Display = B`, the claim's
reading yields `scale_values = [1]` (from the last line matching the scale
pattern), but the loop's `else if` gives the target pattern precedence, so
the code leaves `scale_values` empty. -/
theorem c6_counterexample :
    parseScaleOptionsRaw [strL "# Scale Options = 1,2 # Target Display = B"] =
      ([strL "B"], []) ∧
    specScalesClaim [strL "# Scale Options = 1,2 # Target Display = B"] =
      [F.num 1] ∧
    (parseScaleOptionsRaw [strL "# Scale Options = 1,2 # Target Display = B"]).2 ≠
      specScalesClaim [strL "# Scale Options = 1,2 # Target Display = B"] := by
  decide

/-- C6 (amended): `parse_scale_options`'s loop produces exactly the trimmed
`<value>` of every line matching `# Target Display = <value>` in order of
appearance (duplicates kept), and `scale_values` parsed — comma-split, each
token trimmed, unparsable tokens dropped — from the last line that matches
`# Scale Options = <value>` *and not* the target pattern (which the `else if`
gives precedence), earlier matches being overwritten. -/
theorem c6_parse_section (lines : List Line) :
    parseScaleOptionsRaw lines = (specTargets lines, specScalesAmended lines) := by
  rw [parseScaleOptionsRaw, parseFold_eq lines [] [], specScalesAmended]
  rw [List.nil_append]

/-! ## C3: section extraction -/

theorem findIdxQ_spec (p : α → Bool) (d : α) :
    ∀ (l : List α) (i : ℕ), findIdxQ p l = some i →
      p (l.getD i d) = true ∧ ∀ j, j < i → p (l.getD j d) = false
  | [], i, h => by simp [findIdxQ] at h
  | a :: as, i, h => by
    by_cases hp : p a = true
    · rw [findIdxQ, if_pos hp] at h
      have hi : i = 0 := by simpa using h.symm
      subst hi
      exact ⟨hp, fun j hj => absurd hj (by omega)⟩
    · rw [findIdxQ, if_neg hp] at h
      match hrec : findIdxQ p as with
      | none => rw [hrec] at h; simp at h
      | some j =>
        rw [hrec] at h
        have hi : i = j + 1 := by simpa using h.symm
        subst hi
        obtain ⟨h1, h2⟩ := findIdxQ_spec p d as j hrec
        refine ⟨h1, fun k hk => ?_⟩
        match k with
        | 0 => simpa using hp
        | k' + 1 => exact h2 k' (by omega)

/-- C3 counterexample: the claim reads the section as ending at the first
`Scale Options End` line *after* the start marker, but the code uses the
first such line anywhere in the file.  With an end-marker line before the
start marker, the claim's reading extracts the four-line marked section while
the code slices `lines[1..=0]`, handing the parser the *empty* section (so
the run dies with the unrelated "no target displays" diagnostic instead of
parsing the section).  When the stray end marker sits more than one line
before the start marker, the slice `&lines[s..=e]` panics instead
(`slicePanic`). -/
theorem c3_counterexample :
    mainSection [strL "stray Scale Options End", strL "Scale Options Start",
      strL "# Target Display = D", strL "# Scale Options = 1.0",
      strL "b Scale Options End"] = .ok [] ∧
    claimSection [strL "stray Scale Options End", strL "Scale Options Start",
      strL "# Target Display = D", strL "# Scale Options = 1.0",
      strL "b Scale Options End"] =
      .ok [strL "Scale Options Start", strL "# Target Display = D",
        strL "# Scale Options = 1.0", strL "b Scale Options End"] ∧
    mainSection [strL "stray Scale Options End", strL "Scale Options Start",
      strL "# Target Display = D", strL "# Scale Options = 1.0",
      strL "b Scale Options End"] ≠
    claimSection [strL "stray Scale Options End", strL "Scale Options Start",
      strL "# Target Display = D", strL "# Scale Options = 1.0",
      strL "b Scale Options End"] ∧
    mainSection [strL "stray Scale Options End", strL "x",
      strL "Scale Options Start", strL "Scale Options End"] =
      .error .slicePanic := by decide

/-- C3 (amended): `scale_start` is the first line anywhere containing
`Scale Options Start` and `scale_end` the first line *anywhere* — not merely
after the start — containing `Scale Options End`; a missing start marker,
and otherwise a missing end marker, each terminate the run with its own
diagnostic before any file is written; when `scale_start ≤ scale_end + 1` the
parser receives `lines[scale_start..=scale_end]` (empty when
`scale_start = scale_end + 1`), and when `scale_end + 1 < scale_start` the
slice panics. -/
theorem c3_section_extraction (lines : List Line) :
    (findIdxQ (containsSub startMarker) lines = none →
      mainSection lines = .error .startMissing) ∧
    ∀ s, findIdxQ (containsSub startMarker) lines = some s →
      containsSub startMarker (lines.getD s []) = true ∧
      (∀ j, j < s → containsSub startMarker (lines.getD j []) = false) ∧
      (findIdxQ (containsSub endMarker) lines = none →
        mainSection lines = .error .endMissing) ∧
      ∀ e, findIdxQ (containsSub endMarker) lines = some e →
        containsSub endMarker (lines.getD e []) = true ∧
        (∀ j, j < e → containsSub endMarker (lines.getD j []) = false) ∧
        (s ≤ e + 1 → mainSection lines = .ok ((lines.drop s).take (e + 1 - s))) ∧
        (e + 1 < s → mainSection lines = .error .slicePanic) := by
  constructor
  · intro h
    rw [mainSection, h]
  · intro s hs
    obtain ⟨hs1, hs2⟩ := findIdxQ_spec (containsSub startMarker) [] lines s hs
    refine ⟨hs1, hs2, ?_, ?_⟩
    · intro h
      rw [mainSection, hs, h]
    · intro e he
      obtain ⟨he1, he2⟩ := findIdxQ_spec (containsSub endMarker) [] lines e he
      refine ⟨he1, he2, ?_, ?_⟩
      · intro hle
        rw [mainSection, hs, he]
        show (if s ≤ e + 1 then
            (Except.ok ((lines.drop s).take (e + 1 - s)) : Except ConfigError (List Line))
          else Except.error ConfigError.slicePanic) = _
        rw [if_pos hle]
      · intro hlt
        rw [mainSection, hs, he]
        show (if s ≤ e + 1 then
            (Except.ok ((lines.drop s).take (e + 1 - s)) : Except ConfigError (List Line))
          else Except.error ConfigError.slicePanic) = _
        rw [if_neg (by omega)]

/-- C3 witness: a well-formed file (start marker before the unique end
marker) has exactly the marked lines extracted; a file with no end marker
dies with the end-marker diagnostic. -/
theorem c3_section_extraction_witness :
    mainSection [strL "# Scale Options Start", strL "# x",
      strL "# Scale Options End"] =
      .ok [strL "# Scale Options Start", strL "# x", strL "# Scale Options End"] ∧
    mainSection [strL "# Scale Options Start", strL "# x"] =
      .error .endMissing :=
  ⟨((((c3_section_extraction [strL "# Scale Options Start", strL "# x",
      strL "# Scale Options End"]).2 0 (by decide)).2.2.2 2 (by decide)).2.2.1
      (by decide)),
   (((c3_section_extraction [strL "# Scale Options Start", strL "# x"]).2 0
      (by decide)).2.2.1 (by decide))⟩

/-! ## C8: the temporary-file path -/

/-- C8 (documents the code bug): `expanduser` does expand the leading `~` of
`~/.config/sway/config` against the invoking user's home directory as claimed
(and passes other path forms through unchanged), but the temporary file used
for the rewrite is hardcoded to `/home/fribbit/.config/sway/config_temp`
(main.rs:80).  For any home other than `/home/fribbit` — here `/home/alice` —
the temporary file is *not* in the same directory as the resolved config
path, contradicting the claim's "same directory" property. -/
theorem c8_temp_path_divergence :
    expanduser (some (strL "/home/alice")) swayConfigArg =
      some (strL "/home/alice/.config/sway/config") ∧
    expanduser (some (strL "/home/alice")) (strL "/etc/sway/config") =
      some (strL "/etc/sway/config") ∧
    parentDir tempConfigPath = strL "/home/fribbit/.config/sway" ∧
    parentDir (strL "/home/alice/.config/sway/config") =
      strL "/home/alice/.config/sway" ∧
    parentDir tempConfigPath ≠ parentDir (strL "/home/alice/.config/sway/config") := by
  decide

/-! ## C10: NaN-safety of `get_next_scale` -/

theorem pcmp_ne_none (x y : F) (hx : x ≠ F.nan) (hy : y ≠ F.nan) :
    pcmp x y ≠ none := by
  match x, y with
  | F.nan, _ => exact absurd rfl hx
  | F.num a, F.nan => exact absurd rfl hy
  | F.inf a, F.nan => exact absurd rfl hy
  | F.inf a, F.inf b => rw [pcmp]; split_ifs <;> simp
  | F.inf a, F.num b => rw [pcmp]; split_ifs <;> simp
  | F.num a, F.inf b => rw [pcmp]; split_ifs <;> simp
  | F.num a, F.num b => rw [pcmp]; split_ifs <;> simp

theorem insertF_total (x : F) (hx : x ≠ F.nan) :
    ∀ l : List F, (∀ y ∈ l, y ≠ F.nan) →
      ∃ l', insertF x l = some l' ∧ l'.length = l.length + 1 ∧
        ∀ y ∈ l', y ≠ F.nan
  | [], _ => ⟨[x], rfl, rfl, fun y hy => by
      rw [List.mem_singleton] at hy
      rw [hy]; exact hx⟩
  | y :: ys, h => by
    have hy := h y (List.mem_cons_self y ys)
    match hc : pcmp x y with
    | none => exact absurd hc (pcmp_ne_none x y hx hy)
    | some Ordering.gt =>
      obtain ⟨l', hl', hlen, hnn⟩ :=
        insertF_total x hx ys (fun z hz => h z (List.mem_cons_of_mem y hz))
      refine ⟨y :: l', ?_, by simp [hlen], ?_⟩
      · rw [insertF, hc, hl', Option.map_some']
      · intro z hz
        rcases List.mem_cons.mp hz with h1 | h2
        · rw [h1]; exact hy
        · exact hnn z h2
    | some Ordering.lt =>
      refine ⟨x :: y :: ys, by rw [insertF, hc], by simp, ?_⟩
      intro z hz
      rcases List.mem_cons.mp hz with h1 | h2
      · rw [h1]; exact hx
      · exact h z h2
    | some Ordering.eq =>
      refine ⟨x :: y :: ys, by rw [insertF, hc], by simp, ?_⟩
      intro z hz
      rcases List.mem_cons.mp hz with h1 | h2
      · rw [h1]; exact hx
      · exact h z h2

theorem sortByF_total :
    ∀ l : List F, (∀ y ∈ l, y ≠ F.nan) →
      ∃ l', sortByF l = some l' ∧ l'.length = l.length ∧ ∀ y ∈ l', y ≠ F.nan
  | [], _ => ⟨[], rfl, rfl, by simp⟩
  | x :: xs, h => by
    obtain ⟨s, hs, hslen, hsnn⟩ := sortByF_total xs
      (fun z hz => h z (List.mem_cons_of_mem x hz))
    obtain ⟨l', hl', hlen, hnn⟩ :=
      insertF_total x (h x (List.mem_cons_self x xs)) s hsnn
    refine ⟨l', ?_, by rw [hlen, hslen]; rfl, hnn⟩
    rw [sortByF, hs, Option.some_bind, hl']

theorem getNextScaleF_sorted (sv : List F) (cur : F) (sorted : List F)
    (hs : sortByF sv = some sorted) :
    getNextScaleF sv cur =
      match findIdxQ (fun s => ltF (absF (subF s cur)) (.num scaleEps)) sorted with
      | some i => sorted[(i + 1) % sorted.length]?
      | none => sorted[0]? := by
  rw [getNextScaleF, hs]

/-- C10: on a non-empty `scale_values` list with no NaN element,
`get_next_scale` is total: the sort comparator's `partial_cmp` never hits its
`unwrap` panic and both index accesses (`sorted_scales[0]` and
`sorted_scales[next_index]`) are in bounds, so the `F`-level model returns a
value rather than the panic marker; and the precondition is real, because
`parse_scale_options` accepts the token `"nan"` as a floating-point value. -/
theorem c10_no_nan_total (sv : List F) (cur : F) (h1 : sv ≠ [])
    (h2 : F.nan ∉ sv) :
    (∃ r, getNextScaleF sv cur = some r) ∧
    parseF32F (strL "nan") = some F.nan := by
  refine ⟨?_, by decide⟩
  obtain ⟨sorted, hs, hlen, _⟩ :=
    sortByF_total sv (fun y hy hne => h2 (hne ▸ hy))
  have hpos : 0 < sorted.length := by
    rw [hlen]
    exact List.length_pos.mpr h1
  match hidx : findIdxQ (fun s => ltF (absF (subF s cur)) (.num scaleEps)) sorted with
  | some i =>
    have hbound : (i + 1) % sorted.length < sorted.length := Nat.mod_lt _ hpos
    refine ⟨sorted[(i + 1) % sorted.length], ?_⟩
    rw [getNextScaleF_sorted sv cur sorted hs, hidx]
    exact List.getElem?_eq_getElem hbound
  | none =>
    refine ⟨sorted[0], ?_⟩
    rw [getNextScaleF_sorted sv cur sorted hs, hidx]
    exact List.getElem?_eq_getElem hpos

/-- C10 witness: a concrete NaN-free list is sorted and cycled without
panicking, and `"nan"` indeed parses. -/
theorem c10_no_nan_total_witness :
    (∃ r, getNextScaleF [F.num 1, F.num 2] (F.num 1) = some r) ∧
    parseF32F (strL "nan") = some F.nan :=
  c10_no_nan_total [F.num 1, F.num 2] (F.num 1) (by decide) (by decide)

/-! ## Refinement: the `F`-level model of `get_next_scale` restricted to
finite values agrees with the rational-level model used by C1/C9 -/

theorem insertF_map_num (x : ℚ) :
    ∀ l : List ℚ, insertF (F.num x) (l.map F.num) =
      some ((List.orderedInsert (· ≤ ·) x l).map F.num)
  | [] => rfl
  | y :: ys => by
    rw [List.map_cons, insertF]
    by_cases hlt : x < y
    · have hc : pcmp (F.num x) (F.num y) = some Ordering.lt := by
        rw [pcmp, if_pos hlt]
      rw [hc, List.orderedInsert, if_pos (le_of_lt hlt), List.map_cons, List.map_cons]
    · by_cases heq : x = y
      · have hc : pcmp (F.num x) (F.num y) = some Ordering.eq := by
          rw [pcmp, if_neg hlt, if_pos heq]
        rw [hc, List.orderedInsert, if_pos (le_of_eq heq), List.map_cons, List.map_cons]
      · have hc : pcmp (F.num x) (F.num y) = some Ordering.gt := by
          rw [pcmp, if_neg hlt, if_neg heq]
        have hle : ¬ x ≤ y := fun hxy => heq (le_antisymm hxy (not_lt.mp hlt))
        rw [hc, List.orderedInsert, if_neg hle, insertF_map_num x ys, List.map_cons]
        rfl

theorem sortByF_map_num :
    ∀ l : List ℚ, sortByF (l.map F.num) = some ((sortedScales l).map F.num)
  | [] => rfl
  | x :: xs => by
    rw [List.map_cons, sortByF, sortByF_map_num xs, Option.some_bind,
      insertF_map_num x (sortedScales xs)]
    rfl

theorem ltF_closeEnough (s c : ℚ) :
    ltF (absF (subF (F.num s) (F.num c))) (F.num scaleEps) = closeEnough s c := by
  show decide (|qsub s c| < scaleEps) = closeEnough s c
  rw [closeEnough, qabs_eq]

theorem findIdxQ_map (f : α → β) (p : β → Bool) :
    ∀ l : List α, findIdxQ p (l.map f) = findIdxQ (fun x => p (f x)) l
  | [] => rfl
  | a :: as => by
    rw [List.map_cons, findIdxQ, findIdxQ, findIdxQ_map f p as]

/-- The `F`-level `get_next_scale` (used for C10) refines the rational-level
one (used for C1 and C9): on finite inputs the two models agree. -/
theorem getNextScaleF_refines (sv : List ℚ) (cur : ℚ) (h : sv ≠ []) :
    getNextScaleF (sv.map F.num) (F.num cur) = some (F.num (getNextScale sv cur)) := by
  have hlen : 0 < (sortedScales sv).length := by
    rw [sortedScales_length]
    exact List.length_pos.mpr h
  rw [getNextScaleF_sorted (sv.map F.num) (F.num cur) _ (sortByF_map_num sv),
    findIdxQ_map F.num _ (sortedScales sv)]
  simp only [ltF_closeEnough]
  rw [getNextScale]
  match hidx : findIdxQ (fun x => closeEnough x cur) (sortedScales sv) with
  | some i =>
    have hb : (i + 1) % (sortedScales sv).length < (sortedScales sv).length :=
      Nat.mod_lt _ hlen
    show (List.map F.num (sortedScales sv))[(i + 1) %
        (List.map F.num (sortedScales sv)).length]? =
      some (F.num ((sortedScales sv).getD ((i + 1) % (sortedScales sv).length) 0))
    rw [List.length_map, List.getElem?_map, List.getElem?_eq_getElem hb,
      Option.map_some', List.getD_eq_getElem?_getD, List.getElem?_eq_getElem hb,
      Option.getD_some]
  | none =>
    show (List.map F.num (sortedScales sv))[0]? =
      some (F.num ((sortedScales sv).getD 0 0))
    rw [List.getElem?_map, List.getElem?_eq_getElem hlen, Option.map_some',
      List.getD_eq_getElem?_getD, List.getElem?_eq_getElem hlen, Option.getD_some]
